import Mathlib

/-!
# Arena-indexed binary search tree: shallow embedding

A shallow embedding of `src/arena.rs` (crate `bst`): a binary search tree
whose nodes live in a flat `Vec<Node<T>>` ("arena") and reference each other
by integer index.  The Rust code is translated function by function:

* `Vec<Node<T>>` becomes `List (Node T)`; the panicking index operation
  `self.arena[i]` becomes `l[i]?`, and every operation that may index out of
  bounds returns `Option` (a `none` result models the Rust panic).
* The unbounded `loop`s in `search_parent` and `most_left`, the recursion of
  `recursive_traversal_map_in_dfs`, and the queue loop of
  `traversal_map_in_bfs` are given explicit fuel.  The wrappers pass fuel
  that exceeds the number of iterations the Rust loops can make on any arena
  whose stored indices are in bounds (DFS depth and the search path are
  bounded by the arena length; the BFS loop stops - in a debug build, via
  its `HashSet` guard - after at most one revisit, so it runs at most
  `arena.len() + 1` iterations).  `none` from fuel exhaustion corresponds to
  a diverging / stack-overflowing Rust execution.
* The `#[cfg(debug_assertions)]` visited-set guard of `traversal_map_in_bfs`
  is included (the repository's test suite runs in a debug build).
-/

/-- `Node<T>` of `arena.rs`: index, value and the three optional links. -/
structure Node (T : Type) where
  idx : Nat
  val : T
  parent : Option Nat
  left : Option Nat
  right : Option Nat
deriving Repr, DecidableEq

/-- `ArenaTree<T>` of `arena.rs`: a root index and the backing store. -/
structure ArenaTree (T : Type) where
  root_id : Nat
  arena : List (Node T)
deriving Repr, DecidableEq

/-- `Node::new`: fresh node with no relationships. -/
def Node.new (idx : Nat) (val : T) : Node T :=
  ⟨idx, val, none, none, none⟩

/-- `Node::is_root`. -/
def Node.is_root (n : Node T) : Bool :=
  n.parent.isNone

/-- `Node::is_leaf`. -/
def Node.is_leaf (n : Node T) : Bool :=
  n.left.isNone && n.right.isNone

/-- The `Traversal` enum: six depth-first orders and breadth-first. -/
inductive Traversal where
  | NLR | LNR | LRN | NRL | RNL | RLN | BFS
deriving Repr, DecidableEq

/-- `ArenaTree::node`: append a fresh node, return its index. -/
def ArenaTree.node (t : ArenaTree T) (val : T) : Nat × ArenaTree T :=
  let idx := t.arena.length
  (idx, ⟨t.root_id, t.arena ++ [Node.new idx val]⟩)

/-- `ArenaTree::size`. -/
def ArenaTree.size (t : ArenaTree T) : Nat :=
  t.arena.length

/-- The body of the `loop` in `ArenaTree::search_parent`, with fuel.
Each iteration inspects the current node and either stops or follows a
child link; following a link indexes into the arena. -/
def searchParentLoop [LinearOrder T] (arena : List (Node T)) (val : T) :
    Nat → Node T → Option (Option (Nat × Bool))
  | 0, _ => none
  | fuel + 1, cur =>
    if val < cur.val then
      match cur.left with
      | none => some (some (cur.idx, true))
      | some i => (arena[i]?).bind (searchParentLoop arena val fuel)
    else if cur.val < val then
      match cur.right with
      | none => some (some (cur.idx, false))
      | some i => (arena[i]?).bind (searchParentLoop arena val fuel)
    else
      match cur.parent with
      | none => some none
      | some parent_id =>
        (arena[parent_id]?).map fun parent =>
          some (parent_id, decide (parent.left = some cur.idx))

/-- `ArenaTree::search_parent`.  The outer `some` means the Rust call
returns (no out-of-bounds index, no divergence); the inner option is the
Rust return value. -/
def ArenaTree.search_parent [LinearOrder T] (t : ArenaTree T) (val : T) :
    Option (Option (Nat × Bool)) :=
  if t.size = 0 then some none
  else (t.arena[t.root_id]?).bind (searchParentLoop t.arena val t.arena.length)

/-- `ArenaTree::search`. -/
def ArenaTree.search [LinearOrder T] (t : ArenaTree T) (val : T) :
    Option (Option Nat) :=
  (t.search_parent val).bind fun r =>
    match r with
    | none =>
      if t.arena.isEmpty then some none
      else (t.arena[t.root_id]?).map fun root =>
        if root.val = val then some t.root_id else none
    | some (parent_id, dir) =>
      (t.arena[parent_id]?).map fun parent =>
        if dir then parent.left else parent.right

/-- Write the node at index `i` through `f`; `none` if `i` is out of
bounds (the Rust `&mut self.arena[i]` would panic there). -/
def modifyNode (l : List (Node T)) (i : Nat) (f : Node T → Node T) :
    Option (List (Node T)) :=
  match l[i]? with
  | none => none
  | some n => some (l.set i (f n))

/-- `ArenaTree::insert`. -/
def ArenaTree.insert [LinearOrder T] (t : ArenaTree T) (val : T) :
    Option (Nat × ArenaTree T) :=
  (t.search_parent val).bind fun r =>
    match r with
    | none =>
      if t.arena.isEmpty then some (t.node val)
      else (t.arena[t.root_id]?).map fun root =>
        if root.val = val then (0, t) else t.node val
    | some (parent_id, dir) =>
      (t.arena[parent_id]?).bind fun parent =>
        match (if dir then parent.left else parent.right) with
        | some existing => some (existing, t)
        | none =>
          let p := t.node val
          let id := p.1
          let t1 := p.2
          (modifyNode t1.arena id (fun n => { n with parent := some parent_id })).bind fun a1 =>
          (modifyNode a1 parent_id (fun pn =>
            if dir then { pn with left := some id } else { pn with right := some id })).map fun a2 =>
            (id, ⟨t1.root_id, a2⟩)

/-- `ArenaTree::from_vec`: repeated insertion into a fresh tree. -/
def ArenaTree.from_vec [LinearOrder T] (v : List T) : Option (ArenaTree T) :=
  v.foldlM (fun t val => (t.insert val).map Prod.snd) ⟨0, []⟩

/-- The `loop` in `ArenaTree::most_left`, with fuel. -/
def mostLeftLoop (arena : List (Node T)) : Nat → Node T → Option Nat
  | 0, _ => none
  | fuel + 1, cur =>
    match cur.left with
    | none => some cur.idx
    | some i => (arena[i]?).bind (mostLeftLoop arena fuel)

/-- `ArenaTree::most_left`. -/
def ArenaTree.most_left (t : ArenaTree T) (id : Nat) : Option Nat :=
  (t.arena[id]?).bind (mostLeftLoop t.arena t.arena.length)

/-- The `update_parent!` macro inside `ArenaTree::delete`:
`(None, None)` clears the arena (and leaves `root_id` untouched),
`(None, Some id)` re-roots the tree, and `(Some pid, v)` rewrites the link
of the node at `pid` that pointed at `original_id`. -/
def ArenaTree.update_parent (t : ArenaTree T) (parent_id : Option Nat)
    (id : Option Nat) (original_id : Nat) : Option (ArenaTree T) :=
  match parent_id, id with
  | none, none => some ⟨t.root_id, []⟩
  | none, some i => some ⟨i, t.arena⟩
  | some pid, v =>
    (modifyNode t.arena pid (fun parent =>
      if parent.left = some original_id then { parent with left := v }
      else { parent with right := v })).map
      fun a => ⟨t.root_id, a⟩

/-- `ArenaTree::delete`. -/
def ArenaTree.delete [LinearOrder T] (t : ArenaTree T) (val : T) :
    Option (Bool × ArenaTree T) :=
  (t.search val).bind fun r =>
    match r with
    | none => some (false, t)
    | some id =>
      (t.arena[id]?).bind fun cur =>
        let parent_id := cur.parent
        let right_id := cur.right
        let left_id := cur.left
        match left_id, right_id with
        | none, none =>
          (t.update_parent parent_id none id).map fun t2 => (true, t2)
        | some lid, some rid =>
          (t.most_left rid).bind fun candidate_id =>
          (t.update_parent parent_id (some candidate_id) id).bind fun t1 =>
          (t1.arena[candidate_id]?).bind fun candidate =>
            let candidate_right := candidate.right
            let candidate_parent_id :=
              if rid = candidate_id then some candidate_id else candidate.parent
            (modifyNode t1.arena candidate_id (fun c =>
              { c with right := some rid, left := some lid, parent := parent_id })).bind fun a2 =>
            (ArenaTree.update_parent ⟨t1.root_id, a2⟩ candidate_parent_id
              candidate_right candidate_id).map fun t3 => (true, t3)
        | some lid, none =>
          (t.update_parent parent_id (some lid) id).bind fun t1 =>
          (modifyNode t1.arena lid (fun n => { n with parent := parent_id })).map fun a =>
            (true, ⟨t1.root_id, a⟩)
        | none, some rid =>
          (t.update_parent parent_id (some rid) id).bind fun t1 =>
          (modifyNode t1.arena rid (fun n => { n with parent := parent_id })).map fun a =>
            (true, ⟨t1.root_id, a⟩)

/-- `ArenaTree::recursive_traversal_map_in_dfs`, with fuel bounding the
recursion depth.  A `BFS` argument is `unreachable!()` in the source and is
modelled as a fatal result. -/
def recursive_traversal_map_in_dfs [LinearOrder T] (arena : List (Node T))
    (typ : Traversal) (f : T → T) :
    Nat → Option Nat → List T → Option (List T)
  | _, none, path => some path
  | 0, some _, _ => none
  | fuel + 1, some id, path =>
    (arena[id]?).bind fun n =>
      match typ with
      | .NLR =>
        (recursive_traversal_map_in_dfs arena typ f fuel n.left (path ++ [f n.val])).bind fun p =>
          recursive_traversal_map_in_dfs arena typ f fuel n.right p
      | .LNR =>
        (recursive_traversal_map_in_dfs arena typ f fuel n.left path).bind fun p =>
          recursive_traversal_map_in_dfs arena typ f fuel n.right (p ++ [f n.val])
      | .LRN =>
        (recursive_traversal_map_in_dfs arena typ f fuel n.left path).bind fun p =>
          (recursive_traversal_map_in_dfs arena typ f fuel n.right p).map (· ++ [f n.val])
      | .NRL =>
        (recursive_traversal_map_in_dfs arena typ f fuel n.right (path ++ [f n.val])).bind fun p =>
          recursive_traversal_map_in_dfs arena typ f fuel n.left p
      | .RNL =>
        (recursive_traversal_map_in_dfs arena typ f fuel n.right path).bind fun p =>
          recursive_traversal_map_in_dfs arena typ f fuel n.left (p ++ [f n.val])
      | .RLN =>
        (recursive_traversal_map_in_dfs arena typ f fuel n.right path).bind fun p =>
          (recursive_traversal_map_in_dfs arena typ f fuel n.left p).map (· ++ [f n.val])
      | .BFS => none

/-- `ArenaTree::traversal_map_in_bfs`, with fuel bounding the number of
loop iterations.  `seen` is the debug-build `HashSet` guard: the value is
emitted, then the loop breaks if the node was already visited. -/
def traversal_map_in_bfs (arena : List (Node T)) (f : T → T) :
    Nat → Node T → List Nat → List Nat → List T → Option (List T)
  | 0, _, _, _, _ => none
  | fuel + 1, cur, q, seen, path =>
    let path2 := path ++ [f cur.val]
    if cur.idx ∈ seen then some path2
    else
      let q2 := q ++ (match cur.left with | some i => [i] | none => [])
                  ++ (match cur.right with | some i => [i] | none => [])
      match q2 with
      | [] => some path2
      | id :: rest =>
        (arena[id]?).bind fun nxt =>
          traversal_map_in_bfs arena f fuel nxt rest (cur.idx :: seen) path2

/-- `ArenaTree::traversal_map`. -/
def ArenaTree.traversal_map [LinearOrder T] (t : ArenaTree T) (typ : Traversal)
    (f : T → T) : Option (List T) :=
  if t.arena.isEmpty then some []
  else match typ with
    | .BFS =>
      (t.arena[t.root_id]?).bind fun root =>
        traversal_map_in_bfs t.arena f (t.arena.length + 1) root [] [] []
    | _ => recursive_traversal_map_in_dfs t.arena typ f t.arena.length (some t.root_id) []

/-- `ArenaTree::traversal`: `traversal_map` with the identity function. -/
def ArenaTree.traversal [LinearOrder T] (t : ArenaTree T) (typ : Traversal) :
    Option (List T) :=
  t.traversal_map typ (fun x => x)

/-!
## Abstraction: index-carrying functional binary trees

To reason about insert-only states we abstract the pointer structure of the
arena into an ordinary inductive tree whose nodes remember their arena
index, related to the arena by the representation relation `ArenaRepr`.
-/

/-- A functional binary tree whose nodes carry their arena index. -/
inductive ITree (T : Type) where
  | leaf : ITree T
  | node : ITree T → Nat → T → ITree T → ITree T

/-- In-order (Left, Node, Right) value sequence of the abstract tree. -/
def ITree.ivals : ITree T → List T
  | .leaf => []
  | .node l _ v r => l.ivals ++ v :: r.ivals

/-- In-order sequence of arena indices of the abstract tree. -/
def ITree.idxs : ITree T → List Nat
  | .leaf => []
  | .node l i _ r => l.idxs ++ i :: r.idxs

/-- Number of nodes of the abstract tree. -/
def ITree.sizeI : ITree T → Nat
  | .leaf => 0
  | .node l _ _ r => l.sizeI + r.sizeI + 1

/-- The binary-search-tree ordering property. -/
def ITree.IsBST [LinearOrder T] : ITree T → Prop
  | .leaf => True
  | .node l _ v r =>
    (∀ x ∈ l.ivals, x < v) ∧ (∀ x ∈ r.ivals, v < x) ∧ l.IsBST ∧ r.IsBST

/-- Functional insertion, attaching a fresh node with arena index `N`. -/
def ITree.iinsert [LinearOrder T] (v : T) (N : Nat) : ITree T → ITree T
  | .leaf => .node .leaf N v .leaf
  | .node l i w r =>
    if v < w then .node (l.iinsert v N) i w r
    else if w < v then .node l i w (r.iinsert v N)
    else .node l i w r

/-- `ArenaRepr arena par oi s`: starting from the optional arena index `oi`
(whose node, if any, has parent link `par`), the `left`/`right` links of the
arena spell out exactly the abstract tree `s`, every visited node stores its
own list position in `idx`, and every child's `parent` link points back at
its parent. -/
inductive ArenaRepr (arena : List (Node T)) : Option Nat → Option Nat → ITree T → Prop where
  | leaf : ∀ par, ArenaRepr arena par none .leaf
  | node : ∀ par i n l r,
      arena[i]? = some n → n.idx = i → n.parent = par →
      ArenaRepr arena (some i) n.left l → ArenaRepr arena (some i) n.right r →
      ArenaRepr arena par (some i) (.node l i n.val r)

/-- The arena after `insert` attaches a fresh value `v` below anchor `a` on
side `dir` (`an` is the node stored at `a`): the fresh node is appended with
parent `a`, and the anchor's child link on side `dir` is pointed at it. -/
def attachA (arena : List (Node T)) (v : T) (a : Nat) (dir : Bool) (an : Node T) :
    List (Node T) :=
  ((arena ++ [Node.new arena.length v]).set arena.length
      { Node.new arena.length v with parent := some a }).set a
    (if dir then { an with left := some arena.length }
     else { an with right := some arena.length })

/-- Invariant tying an insert-only tree state to its abstraction: the root
index is `0`, the abstraction is an ordered tree with pairwise-distinct
arena indices, and (unless the store is empty) the arena represents it. -/
def GoodState [LinearOrder T] (t : ArenaTree T) (s : ITree T) : Prop :=
  t.root_id = 0 ∧ s.IsBST ∧ s.idxs.Nodup ∧
  ((t.arena = [] ∧ s = .leaf) ∨ ArenaRepr t.arena none (some t.root_id) s)

/-- What `search_parent`'s loop knows about the parent of the subtree it
currently descends into: either there is none, or the parent node exists
and links to the subtree root from one of its sides. -/
def ParOK (arena : List (Node T)) (par : Option Nat) (i : Nat) : Prop :=
  par = none ∨
  ∃ p pn, par = some p ∧ arena[p]? = some pn ∧ (pn.left = some i ∨ pn.right = some i)

/-- Shape of `search_parent`'s answer when `v` is present: either the hit
was the subtree root `i` and it has no parent, or the answer names a parent
node whose link on the reported side is the hit node `c`. -/
def FoundSpec (arena : List (Node T)) (res : Option (Nat × Bool))
    (par : Option Nat) (i c : Nat) : Prop :=
  (res = none ∧ par = none ∧ c = i) ∨
  (∃ p pn dir, res = some (p, dir) ∧ arena[p]? = some pn ∧
    (if dir then pn.left else pn.right) = some c)

/-!
## Basic lemmas
-/

theorem getElem?_some_lt {l : List A} {i : Nat} {x : A} (h : l[i]? = some x) :
    i < l.length := by
  by_contra hc
  rw [List.getElem?_eq_none (by omega)] at h
  exact Option.noConfusion h

theorem ArenaRepr.none_inv {arena : List (Node T)} {par : Option Nat} {s : ITree T}
    (h : ArenaRepr arena par none s) : s = .leaf := by
  cases h; rfl

theorem ArenaRepr.leaf_inv {arena : List (Node T)} {par oi : Option Nat}
    (h : ArenaRepr arena par oi .leaf) : oi = none := by
  cases h; rfl

theorem ArenaRepr.idxs_lt {arena : List (Node T)} :
    ∀ {par oi : Option Nat} {s : ITree T}, ArenaRepr arena par oi s →
      ∀ j ∈ s.idxs, j < arena.length := by
  intro par oi s h
  induction h with
  | leaf => intro j hj; simp [ITree.idxs] at hj
  | node par i n l r hget hidx hpar hl hr ihl ihr =>
    intro j hj
    simp only [ITree.idxs, List.mem_append, List.mem_cons] at hj
    rcases hj with hj | hj | hj
    · exact ihl j hj
    · exact hj ▸ getElem?_some_lt hget
    · exact ihr j hj

theorem ArenaRepr.append {arena ex : List (Node T)} :
    ∀ {par oi : Option Nat} {s : ITree T}, ArenaRepr arena par oi s →
      ArenaRepr (arena ++ ex) par oi s := by
  intro par oi s h
  induction h with
  | leaf par => exact .leaf par
  | node par i n l r hget hidx hpar hl hr ihl ihr =>
    exact .node par i n l r
      (by rw [List.getElem?_append_left (getElem?_some_lt hget)]; exact hget)
      hidx hpar ihl ihr

theorem ArenaRepr.set_not_mem {arena : List (Node T)} {a : Nat} {x : Node T} :
    ∀ {par oi : Option Nat} {s : ITree T}, ArenaRepr arena par oi s →
      a ∉ s.idxs → ArenaRepr (arena.set a x) par oi s := by
  intro par oi s h
  induction h with
  | leaf par => intro _; exact .leaf par
  | node par i n l r hget hidx hpar hl hr ihl ihr =>
    intro ha
    simp only [ITree.idxs, List.mem_append, List.mem_cons, not_or] at ha
    exact .node par i n l r
      (by rw [List.getElem?_set_ne ha.2.1]; exact hget)
      hidx hpar (ihl ha.1) (ihr ha.2.2)

theorem ITree.sizeI_eq_idxs_length (s : ITree T) : s.sizeI = s.idxs.length := by
  induction s with
  | leaf => simp [ITree.sizeI, ITree.idxs]
  | node l i w r ihl ihr => simp [ITree.sizeI, ITree.idxs, ihl, ihr]; omega

theorem ArenaRepr.sizeI_le {arena : List (Node T)} {par oi : Option Nat} {s : ITree T}
    (h : ArenaRepr arena par oi s) (hnd : s.idxs.Nodup) : s.sizeI ≤ arena.length := by
  rw [ITree.sizeI_eq_idxs_length]
  have hsub : s.idxs.Subperm (List.range arena.length) :=
    List.subperm_of_subset hnd (by
      intro j hj
      simpa using h.idxs_lt j hj)
  simpa using hsub.length_le

theorem ITree.mem_ivals_iinsert [LinearOrder T] (v : T) (N : Nat) :
    ∀ (s : ITree T) (x : T), x ∈ (s.iinsert v N).ivals ↔ x ∈ s.ivals ∨ x = v := by
  intro s
  induction s with
  | leaf => intro x; simp [ITree.iinsert, ITree.ivals, or_comm]
  | node l i w r ihl ihr =>
    intro x
    by_cases h1 : v < w
    · simp only [ITree.iinsert, if_pos h1, ITree.ivals, List.mem_append, List.mem_cons, ihl]
      tauto
    · by_cases h2 : w < v
      · simp only [ITree.iinsert, if_neg h1, if_pos h2, ITree.ivals, List.mem_append,
          List.mem_cons, ihr]
        tauto
      · have hvw : v = w := le_antisymm (not_lt.mp h2) (not_lt.mp h1)
        simp only [ITree.iinsert, if_neg h1, if_neg h2, ITree.ivals, List.mem_append,
          List.mem_cons]
        constructor
        · tauto
        · rintro ((h | h) | h) <;> try tauto
          subst h; subst hvw; tauto

theorem ITree.ivals_iinsert_perm [LinearOrder T] (v : T) (N : Nat) :
    ∀ (s : ITree T), v ∉ s.ivals → (s.iinsert v N).ivals.Perm (v :: s.ivals) := by
  intro s
  induction s with
  | leaf => intro _; simp [ITree.iinsert, ITree.ivals]
  | node l i w r ihl ihr =>
    intro hv
    simp only [ITree.ivals, List.mem_append, List.mem_cons, not_or] at hv
    by_cases h1 : v < w
    · simp only [ITree.iinsert, if_pos h1, ITree.ivals]
      calc ((l.iinsert v N).ivals ++ w :: r.ivals).Perm
            ((v :: l.ivals) ++ w :: r.ivals) := List.Perm.append_right _ (ihl hv.1)
        _ = v :: (l.ivals ++ w :: r.ivals) := rfl
    · by_cases h2 : w < v
      · simp only [ITree.iinsert, if_neg h1, if_pos h2, ITree.ivals]
        have : (l.ivals ++ w :: (r.iinsert v N).ivals).Perm
            (l.ivals ++ w :: (v :: r.ivals)) := by
          exact List.Perm.append_left _ (List.Perm.cons _ (ihr hv.2.2))
        refine this.trans ?_
        have := @List.perm_middle _ v (l.ivals ++ [w]) r.ivals
        simpa using this
      · exact absurd (le_antisymm (not_lt.mp h1) (not_lt.mp h2)) (by tauto)

theorem ITree.idxs_iinsert_perm [LinearOrder T] (v : T) (N : Nat) :
    ∀ (s : ITree T), v ∉ s.ivals → (s.iinsert v N).idxs.Perm (N :: s.idxs) := by
  intro s
  induction s with
  | leaf => intro _; simp [ITree.iinsert, ITree.idxs]
  | node l i w r ihl ihr =>
    intro hv
    simp only [ITree.ivals, List.mem_append, List.mem_cons, not_or] at hv
    by_cases h1 : v < w
    · simp only [ITree.iinsert, if_pos h1, ITree.idxs]
      calc ((l.iinsert v N).idxs ++ i :: r.idxs).Perm
            ((N :: l.idxs) ++ i :: r.idxs) := List.Perm.append_right _ (ihl hv.1)
        _ = N :: (l.idxs ++ i :: r.idxs) := rfl
    · by_cases h2 : w < v
      · simp only [ITree.iinsert, if_neg h1, if_pos h2, ITree.idxs]
        have hstep : (l.idxs ++ i :: (r.iinsert v N).idxs).Perm
            (l.idxs ++ i :: (N :: r.idxs)) :=
          List.Perm.append_left _ (List.Perm.cons _ (ihr hv.2.2))
        refine hstep.trans ?_
        have := @List.perm_middle _ N (l.idxs ++ [i]) r.idxs
        simpa using this
      · exact absurd (le_antisymm (not_lt.mp h1) (not_lt.mp h2)) (by tauto)

theorem ITree.IsBST_iinsert [LinearOrder T] (v : T) (N : Nat) :
    ∀ (s : ITree T), s.IsBST → (s.iinsert v N).IsBST := by
  intro s
  induction s with
  | leaf => intro _; exact ⟨by simp [ITree.ivals], by simp [ITree.ivals], trivial, trivial⟩
  | node l i w r ihl ihr =>
    intro hb
    obtain ⟨hbl, hbr, hl, hr⟩ := hb
    by_cases h1 : v < w
    · simp only [ITree.iinsert, if_pos h1]
      refine ⟨?_, hbr, ihl hl, hr⟩
      intro x hx
      rcases (ITree.mem_ivals_iinsert v N l x).mp hx with h | h
      · exact hbl x h
      · exact h ▸ h1
    · by_cases h2 : w < v
      · simp only [ITree.iinsert, if_neg h1, if_pos h2]
        refine ⟨hbl, ?_, hl, ihr hr⟩
        intro x hx
        rcases (ITree.mem_ivals_iinsert v N r x).mp hx with h | h
        · exact hbr x h
        · exact h ▸ h2
      · simpa only [ITree.iinsert, if_neg h1, if_neg h2] using ⟨hbl, hbr, hl, hr⟩

theorem ITree.ivals_sorted [LinearOrder T] :
    ∀ (s : ITree T), s.IsBST → s.ivals.Sorted (· < ·) := by
  intro s
  induction s with
  | leaf => intro _; simp [ITree.ivals]
  | node l i w r ihl ihr =>
    intro hb
    obtain ⟨hbl, hbr, hl, hr⟩ := hb
    simp only [ITree.ivals, List.Sorted]
    rw [List.pairwise_append]
    refine ⟨ihl hl, ?_, ?_⟩
    · rw [List.pairwise_cons]
      exact ⟨hbr, ihr hr⟩
    · intro a ha b hb
      rcases List.mem_cons.mp hb with rfl | hb
      · exact hbl a ha
      · exact lt_trans (hbl a ha) (hbr b hb)

theorem ITree.nodup_node {l r : ITree T} {i : Nat} {w : T}
    (h : (ITree.node l i w r).idxs.Nodup) :
    l.idxs.Nodup ∧ r.idxs.Nodup ∧ i ∉ l.idxs ∧ i ∉ r.idxs ∧
      (∀ a ∈ l.idxs, a ≠ i ∧ a ∉ r.idxs) := by
  simp only [ITree.idxs] at h
  rw [List.nodup_append] at h
  obtain ⟨h1, h2, h3⟩ := h
  rw [List.nodup_cons] at h2
  refine ⟨h1, h2.2, ?_, h2.1, ?_⟩
  · intro hi
    exact h3 hi (List.mem_cons_self _ _)
  · intro a ha
    refine ⟨?_, ?_⟩
    · intro he
      exact h3 ha (he ▸ List.mem_cons_self _ _)
    · intro hmem
      exact h3 ha (List.mem_cons_of_mem _ hmem)

theorem ArenaRepr.some_get {arena : List (Node T)} {par : Option Nat} {i : Nat}
    {s : ITree T} (h : ArenaRepr arena par (some i) s) :
    ∃ n, arena[i]? = some n := by
  cases h with
  | node _ _ n _ _ hget => exact ⟨n, hget⟩

theorem attachA_preserves {arena : List (Node T)} {v : T} {a : Nat} {dir : Bool}
    {an : Node T} {par oi : Option Nat} {s : ITree T}
    (h : ArenaRepr arena par oi s) (hna : a ∉ s.idxs) :
    ArenaRepr (attachA arena v a dir an) par oi s := by
  have hL : arena.length ∉ s.idxs := by
    intro hmem
    exact absurd (h.idxs_lt _ hmem) (lt_irrefl _)
  exact (h.append.set_not_mem hL).set_not_mem hna

theorem attachA_new_node {arena : List (Node T)} {v : T} {a : Nat} {dir : Bool}
    {an : Node T} (ha : a < arena.length) :
    ArenaRepr (attachA arena v a dir an) (some a) (some arena.length)
      (.node .leaf arena.length v .leaf) := by
  refine ArenaRepr.node (some a) arena.length ⟨arena.length, v, some a, none, none⟩
    .leaf .leaf ?_ rfl rfl (.leaf _) (.leaf _)
  unfold attachA
  rw [List.getElem?_set_ne (by omega : a ≠ arena.length),
    List.getElem?_set_self (by simp)]
  rfl

theorem attachA_anchor {arena : List (Node T)} {v : T} {a : Nat} {dir : Bool}
    {an : Node T} (ha : a < arena.length) :
    (attachA arena v a dir an)[a]? =
      some (if dir then { an with left := some arena.length }
            else { an with right := some arena.length }) := by
  unfold attachA
  rw [List.getElem?_set_self]
  simp
  omega

theorem attachA_other {arena : List (Node T)} {v : T} {a : Nat} {dir : Bool}
    {an : Node T} {j : Nat} (hja : j ≠ a) (hj : j < arena.length) :
    (attachA arena v a dir an)[j]? = arena[j]? := by
  unfold attachA
  rw [List.getElem?_set_ne (fun hc => hja hc.symm),
    List.getElem?_set_ne (by omega : arena.length ≠ j),
    List.getElem?_append_left hj]

theorem spl_char [LinearOrder T] (arena : List (Node T)) (v : T)
    {par oi : Option Nat} {s : ITree T} (h : ArenaRepr arena par oi s) :
    ∀ (fuel : Nat) (i : Nat) (n : Node T),
      oi = some i →
      arena[i]? = some n →
      s.sizeI ≤ fuel →
      s.IsBST →
      s.idxs.Nodup →
      ParOK arena par i →
      ((v ∈ s.ivals →
        ∃ res c cn, searchParentLoop arena v fuel n = some res ∧
          arena[c]? = some cn ∧ cn.val = v ∧ c ∈ s.idxs ∧ FoundSpec arena res par i c) ∧
       (v ∉ s.ivals →
        ∃ a dir an, searchParentLoop arena v fuel n = some (some (a, dir)) ∧
          arena[a]? = some an ∧ (if dir then an.left else an.right) = none ∧
          a ∈ s.idxs ∧
          ArenaRepr (attachA arena v a dir an) par (some i) (s.iinsert v arena.length))) := by
  induction h with
  | leaf par =>
    intro fuel i n hoi
    exact absurd hoi (by simp)
  | node par i n l r hget hidx hpar hl hr ihl ihr =>
    intro fuel i' n' hoi hn' hfuel hbst hnd hpok
    injection hoi with hii
    subst hii
    rw [hget] at hn'
    injection hn' with hnn
    subst hnn
    simp only [ITree.IsBST] at hbst
    obtain ⟨hbl, hbr, hbstl, hbstr⟩ := hbst
    obtain ⟨hndl, hndr, hinl, hinr, hdisj⟩ := ITree.nodup_node hnd
    simp only [ITree.sizeI] at hfuel
    cases fuel with
    | zero => omega
    | succ f =>
    have hszl : l.sizeI ≤ f := by omega
    have hszr : r.sizeI ≤ f := by omega
    have hiL : i < arena.length := getElem?_some_lt hget
    rcases lt_trichotomy v n.val with hlt | heq | hgt
    · -- descend to the left
      cases hnl : n.left with
      | none =>
        rw [hnl] at hl
        have hleaf := hl.none_inv
        subst hleaf
        have heval : searchParentLoop arena v (f + 1) n = some (some (i, true)) := by
          simp [searchParentLoop, hlt, hnl, hidx]
        constructor
        · intro hmem
          exfalso
          simp only [ITree.ivals, List.mem_append, List.mem_cons] at hmem
          rcases hmem with hm | hm | hm
          · simp [ITree.ivals] at hm
          · exact absurd (hm ▸ hlt) (lt_irrefl _)
          · exact lt_asymm hlt (hbr v hm)
        · intro _
          refine ⟨i, true, n, heval, hget, by simp [hnl], by simp [ITree.idxs], ?_⟩
          have hitree : (ITree.node ITree.leaf i n.val r).iinsert v arena.length
              = ITree.node (ITree.node .leaf arena.length v .leaf) i n.val r := by
            simp [ITree.iinsert, hlt]
          rw [hitree]
          refine ArenaRepr.node par i { n with left := some arena.length }
            (ITree.node .leaf arena.length v .leaf) r ?_ hidx hpar ?_ ?_
          · rw [attachA_anchor hiL]
            simp
          · exact attachA_new_node hiL
          · exact attachA_preserves hr hinr
      | some li =>
        rw [hnl] at hl
        obtain ⟨ln, hlget⟩ := hl.some_get
        have hpokl : ParOK arena (some i) li := by
          simp only [ParOK]
          exact Or.inr ⟨i, n, rfl, hget, Or.inl hnl⟩
        have hIH := ihl f li ln hnl hlget hszl hbstl hndl hpokl
        have heval : searchParentLoop arena v (f + 1) n = searchParentLoop arena v f ln := by
          simp [searchParentLoop, hlt, hnl, hlget]
        constructor
        · intro hmem
          simp only [ITree.ivals, List.mem_append, List.mem_cons] at hmem
          have hvml : v ∈ l.ivals := by
            rcases hmem with hm | hm | hm
            · exact hm
            · exact absurd (hm ▸ hlt) (lt_irrefl _)
            · exact absurd (hbr v hm) (lt_asymm hlt)
          obtain ⟨res, c, cn, hev, hc, hcv, hcmem, hfs⟩ := hIH.1 hvml
          refine ⟨res, c, cn, by rw [heval]; exact hev, hc, hcv, ?_, ?_⟩
          · simp only [ITree.idxs, List.mem_append, List.mem_cons]
            exact Or.inl hcmem
          · simp only [FoundSpec] at hfs ⊢
            rcases hfs with ⟨_, hcontra, _⟩ | hfs
            · exact Option.noConfusion hcontra
            · exact Or.inr hfs
        · intro hnmem
          have hnml : v ∉ l.ivals := fun hm => hnmem (by
            simp only [ITree.ivals, List.mem_append, List.mem_cons]
            exact Or.inl hm)
          obtain ⟨a, dir, an, hev, ha, hside, hamem, hrepr⟩ := hIH.2 hnml
          have haneq := hdisj a hamem
          refine ⟨a, dir, an, by rw [heval]; exact hev, ha, hside, ?_, ?_⟩
          · simp only [ITree.idxs, List.mem_append, List.mem_cons]
            exact Or.inl hamem
          · have hitree : (ITree.node l i n.val r).iinsert v arena.length
                = ITree.node (l.iinsert v arena.length) i n.val r := by
              simp [ITree.iinsert, hlt]
            rw [hitree]
            refine ArenaRepr.node par i n (l.iinsert v arena.length) r ?_ hidx hpar ?_ ?_
            · rw [attachA_other (Ne.symm haneq.1) hiL]
              exact hget
            · rw [hnl]
              exact hrepr
            · exact attachA_preserves hr haneq.2
    · -- equal: the value sits at this node
      have hne1 : ¬ v < n.val := by rw [heq]; exact lt_irrefl _
      have hne2 : ¬ n.val < v := by rw [heq]; exact lt_irrefl _
      constructor
      · intro _
        cases hp : n.parent with
        | none =>
          have heval : searchParentLoop arena v (f + 1) n = some none := by
            simp [searchParentLoop, hne1, hne2, hp]
          refine ⟨none, i, n, heval, hget, heq.symm, by simp [ITree.idxs], ?_⟩
          exact Or.inl ⟨rfl, by rw [← hpar, hp], rfl⟩
        | some p =>
          have hparp : par = some p := by rw [← hpar, hp]
          simp only [ParOK] at hpok
          rcases hpok with hc | ⟨p', pn, hpeq, hpget, hor⟩
          · rw [hparp] at hc
            exact Option.noConfusion hc
          · rw [hparp] at hpeq
            injection hpeq with hpp
            subst hpp
            have heval : searchParentLoop arena v (f + 1) n
                = some (some (p, decide (pn.left = some i))) := by
              simp [searchParentLoop, hne1, hne2, hp, hpget, hidx]
            refine ⟨_, i, n, heval, hget, heq.symm, by simp [ITree.idxs], ?_⟩
            refine Or.inr ⟨p, pn, decide (pn.left = some i), rfl, hpget, ?_⟩
            by_cases hpl : pn.left = some i
            · simp [hpl]
            · have hpr : pn.right = some i := by
                rcases hor with hh | hh
                · exact absurd hh hpl
                · exact hh
              simp [hpl, hpr]
      · intro hnmem
        exact absurd (by
          simp only [ITree.ivals, List.mem_append, List.mem_cons]
          exact Or.inr (Or.inl heq) : v ∈ (ITree.node l i n.val r).ivals) hnmem
    · -- descend to the right
      have hne1 : ¬ v < n.val := lt_asymm hgt
      cases hnr : n.right with
      | none =>
        rw [hnr] at hr
        have hleaf := hr.none_inv
        subst hleaf
        have heval : searchParentLoop arena v (f + 1) n = some (some (i, false)) := by
          simp [searchParentLoop, hne1, hgt, hnr, hidx]
        constructor
        · intro hmem
          exfalso
          simp only [ITree.ivals, List.mem_append, List.mem_cons] at hmem
          rcases hmem with hm | hm | hm
          · exact lt_asymm hgt (hbl v hm)
          · exact absurd (hm ▸ hgt) (lt_irrefl _)
          · simp [ITree.ivals] at hm
        · intro _
          refine ⟨i, false, n, heval, hget, by simp [hnr], by simp [ITree.idxs], ?_⟩
          have hitree : (ITree.node l i n.val ITree.leaf).iinsert v arena.length
              = ITree.node l i n.val (ITree.node .leaf arena.length v .leaf) := by
            simp [ITree.iinsert, hne1, hgt]
          rw [hitree]
          refine ArenaRepr.node par i { n with right := some arena.length }
            l (ITree.node .leaf arena.length v .leaf) ?_ hidx hpar ?_ ?_
          · rw [attachA_anchor hiL]
            simp
          · exact attachA_preserves hl hinl
          · exact attachA_new_node hiL
      | some ri =>
        rw [hnr] at hr
        obtain ⟨rn, hrget⟩ := hr.some_get
        have hpokr : ParOK arena (some i) ri := by
          simp only [ParOK]
          exact Or.inr ⟨i, n, rfl, hget, Or.inr hnr⟩
        have hIH := ihr f ri rn hnr hrget hszr hbstr hndr hpokr
        have heval : searchParentLoop arena v (f + 1) n = searchParentLoop arena v f rn := by
          simp [searchParentLoop, hne1, hgt, hnr, hrget]
        constructor
        · intro hmem
          simp only [ITree.ivals, List.mem_append, List.mem_cons] at hmem
          have hvmr : v ∈ r.ivals := by
            rcases hmem with hm | hm | hm
            · exact absurd (hbl v hm) (lt_asymm hgt)
            · exact absurd (hm ▸ hgt) (lt_irrefl _)
            · exact hm
          obtain ⟨res, c, cn, hev, hc, hcv, hcmem, hfs⟩ := hIH.1 hvmr
          refine ⟨res, c, cn, by rw [heval]; exact hev, hc, hcv, ?_, ?_⟩
          · simp only [ITree.idxs, List.mem_append, List.mem_cons]
            exact Or.inr (Or.inr hcmem)
          · simp only [FoundSpec] at hfs ⊢
            rcases hfs with ⟨_, hcontra, _⟩ | hfs
            · exact Option.noConfusion hcontra
            · exact Or.inr hfs
        · intro hnmem
          have hnmr : v ∉ r.ivals := fun hm => hnmem (by
            simp only [ITree.ivals, List.mem_append, List.mem_cons]
            exact Or.inr (Or.inr hm))
          obtain ⟨a, dir, an, hev, ha, hside, hamem, hrepr⟩ := hIH.2 hnmr
          have hanei : a ≠ i := by
            intro hc
            exact hinr (hc ▸ hamem)
          have hanl : a ∉ l.idxs := by
            intro hc
            exact (hdisj a hc).2 hamem
          refine ⟨a, dir, an, by rw [heval]; exact hev, ha, hside, ?_, ?_⟩
          · simp only [ITree.idxs, List.mem_append, List.mem_cons]
            exact Or.inr (Or.inr hamem)
          · have hitree : (ITree.node l i n.val r).iinsert v arena.length
                = ITree.node l i n.val (r.iinsert v arena.length) := by
              simp [ITree.iinsert, hne1, hgt]
            rw [hitree]
            refine ArenaRepr.node par i n l (r.iinsert v arena.length) ?_ hidx hpar ?_ ?_
            · rw [attachA_other (Ne.symm hanei) hiL]
              exact hget
            · exact attachA_preserves hl hanl
            · rw [hnr]
              exact hrepr

theorem insert_sim [LinearOrder T] (t : ArenaTree T) (s : ITree T) (v : T)
    (h : GoodState t s) :
    ∃ i t', t.insert v = some (i, t') ∧
      ∃ s', GoodState t' s' ∧ (∀ x, x ∈ s'.ivals ↔ x ∈ s.ivals ∨ x = v) := by
  obtain ⟨hroot, hbst, hnd, hca⟩ := h
  rcases hca with ⟨hempty, hsleaf⟩ | hrepr
  · -- the store is empty: the new node becomes index 0
    subst hsleaf
    have hsp : t.search_parent v = some none := by
      simp [ArenaTree.search_parent, ArenaTree.size, hempty]
    have hins : t.insert v = some (0, ⟨t.root_id, [Node.new 0 v]⟩) := by
      simp [ArenaTree.insert, hsp, hempty, ArenaTree.node]
    refine ⟨0, _, hins, ⟨ITree.node .leaf 0 v .leaf, ⟨hroot, ?_, ?_, Or.inr ?_⟩, ?_⟩⟩
    · exact ⟨by simp [ITree.ivals], by simp [ITree.ivals], trivial, trivial⟩
    · simp [ITree.idxs]
    · show ArenaRepr [Node.new 0 v] none (some t.root_id) _
      rw [hroot]
      exact ArenaRepr.node none 0 (Node.new 0 v) .leaf .leaf (by simp) rfl rfl
        (.leaf _) (.leaf _)
    · intro x
      simp [ITree.ivals]
  · -- non-empty store
    obtain ⟨n, hget⟩ := hrepr.some_get
    have hrootlt := getElem?_some_lt hget
    have hlen0 : ¬ t.size = 0 := by
      simp only [ArenaTree.size]
      omega
    have hne : t.arena ≠ [] := by
      intro hc
      rw [hc] at hrootlt
      simp at hrootlt
    have hsz : s.sizeI ≤ t.arena.length := hrepr.sizeI_le hnd
    have hchar := spl_char t.arena v hrepr t.arena.length t.root_id n rfl hget hsz hbst hnd
      (Or.inl rfl)
    have hspeq : ∀ res, searchParentLoop t.arena v t.arena.length n = some res →
        t.search_parent v = some res := by
      intro res hres
      unfold ArenaTree.search_parent
      rw [if_neg hlen0, hget]
      simpa using hres
    by_cases hmem : v ∈ s.ivals
    · obtain ⟨res, c, cn, hev, hc, hcv, _, hfs⟩ := hchar.1 hmem
      have hsp := hspeq res hev
      rcases hfs with ⟨hres, _, hci⟩ | ⟨p, pn, dir, hres, hpget, hside⟩
      · -- value found at the root
        subst hres
        subst hci
        rw [hget] at hc
        injection hc with hcc
        subst hcc
        have hins : t.insert v = some (0, t) := by
          simp [ArenaTree.insert, hsp, List.isEmpty_eq_false.mpr hne, hget, hcv]
        exact ⟨0, t, hins, s, ⟨hroot, hbst, hnd, Or.inr hrepr⟩,
          fun x => ⟨Or.inl, fun hx => hx.elim id (fun he => by rw [he]; exact hmem)⟩⟩
      · -- value found below the root
        subst hres
        have hins : t.insert v = some (c, t) := by
          simp [ArenaTree.insert, hsp, hpget, hside]
        exact ⟨c, t, hins, s, ⟨hroot, hbst, hnd, Or.inr hrepr⟩,
          fun x => ⟨Or.inl, fun hx => hx.elim id (fun he => by rw [he]; exact hmem)⟩⟩
    · -- value absent: a fresh node is attached at the anchor
      obtain ⟨a, dir, an, hev, ha, hside, _, hattach⟩ := hchar.2 hmem
      have hsp := hspeq _ hev
      have haL : a < t.arena.length := getElem?_some_lt ha
      have hins : t.insert v
          = some (t.arena.length, ⟨t.root_id, attachA t.arena v a dir an⟩) := by
        have h2 : (t.arena ++ [{ Node.new t.arena.length v with parent := some a }])[a]?
            = some an := by
          rw [List.getElem?_append_left haL]
          exact ha
        simp [ArenaTree.insert, hsp, ha, hside, ArenaTree.node, modifyNode,
          List.getElem?_concat_length, h2, attachA]
      refine ⟨_, _, hins, s.iinsert v t.arena.length, ⟨hroot, ?_, ?_, Or.inr ?_⟩, ?_⟩
      · exact ITree.IsBST_iinsert v _ s hbst
      · have hperm := ITree.idxs_iinsert_perm v t.arena.length s hmem
        rw [hperm.nodup_iff]
        exact List.nodup_cons.mpr
          ⟨fun hcm => absurd (hrepr.idxs_lt _ hcm) (lt_irrefl _), hnd⟩
      · exact hattach
      · intro x
        have hperm := ITree.ivals_iinsert_perm v t.arena.length s hmem
        rw [hperm.mem_iff]
        simp [or_comm]

theorem foldl_insert_good [LinearOrder T] :
    ∀ (l : List T) (t : ArenaTree T) (s : ITree T), GoodState t s →
      ∃ t' s', List.foldlM (fun t val => (t.insert val).map Prod.snd) t l = some t' ∧
        GoodState t' s' ∧ (∀ x, x ∈ s'.ivals ↔ x ∈ s.ivals ∨ x ∈ l) := by
  intro l
  induction l with
  | nil =>
    intro t s hgs
    exact ⟨t, s, by simp [List.foldlM_nil], hgs, fun x => by simp⟩
  | cons v rest ih =>
    intro t s hgs
    obtain ⟨i1, t1, hins, s1, hgs1, hmem1⟩ := insert_sim t s v hgs
    obtain ⟨t', s', hfold, hgs', hmem'⟩ := ih t1 s1 hgs1
    refine ⟨t', s', ?_, hgs', ?_⟩
    · rw [List.foldlM_cons]
      simp only [hins, Option.map_some']
      simpa using hfold
    · intro x
      rw [hmem' x]
      simp only [hmem1 x, List.mem_cons]
      tauto

theorem from_vec_good [LinearOrder T] (l : List T) :
    ∃ t s, ArenaTree.from_vec l = some t ∧ GoodState t s ∧
      (∀ x, x ∈ s.ivals ↔ x ∈ l) := by
  have hinit : GoodState (⟨0, []⟩ : ArenaTree T) .leaf :=
    ⟨rfl, trivial, by simp [ITree.idxs], Or.inl ⟨rfl, rfl⟩⟩
  obtain ⟨t, s, hfold, hgs, hmem⟩ := foldl_insert_good l ⟨0, []⟩ .leaf hinit
  refine ⟨t, s, hfold, hgs, fun x => ?_⟩
  rw [hmem x]
  simp [ITree.ivals]

theorem dfs_lnr_repr [LinearOrder T] (arena : List (Node T)) (f : T → T) :
    ∀ (s : ITree T) (fuel : Nat) (par oi : Option Nat) (path : List T),
      s.sizeI ≤ fuel → ArenaRepr arena par oi s →
      recursive_traversal_map_in_dfs arena .LNR f fuel oi path
        = some (path ++ s.ivals.map f) := by
  intro s
  induction s with
  | leaf =>
    intro fuel par oi path _ hrepr
    rw [hrepr.leaf_inv]
    cases fuel <;> simp [recursive_traversal_map_in_dfs, ITree.ivals]
  | node l ti w r ihl ihr =>
    intro fuel par oi path hfuel hrepr
    cases hrepr with
    | node _ i n l' r' hget hidx hpar hl hr =>
      simp only [ITree.sizeI] at hfuel
      cases fuel with
      | zero => omega
      | succ fl =>
        have hszl : l.sizeI ≤ fl := by omega
        have hszr : r.sizeI ≤ fl := by omega
        have h1 := ihl fl (some ti) n.left path hszl hl
        have h2 := ihr fl (some ti) n.right (path ++ l.ivals.map f ++ [f n.val]) hszr hr
        simp only [recursive_traversal_map_in_dfs, hget, Option.some_bind, h1,
          Option.some_bind, h2, ITree.ivals]
        simp

theorem dfs_map_comm [LinearOrder T] (arena : List (Node T)) (typ : Traversal)
    (f : T → T) :
    ∀ (fuel : Nat) (oi : Option Nat) (path : List T),
      recursive_traversal_map_in_dfs arena typ f fuel oi (path.map f)
        = (recursive_traversal_map_in_dfs arena typ (fun x => x) fuel oi path).map
            (List.map f) := by
  intro fuel
  induction fuel with
  | zero =>
    intro oi path
    cases oi <;> simp [recursive_traversal_map_in_dfs]
  | succ fl ih =>
    intro oi path
    cases oi with
    | none => simp [recursive_traversal_map_in_dfs]
    | some id =>
      cases hga : arena[id]? with
      | none => simp [recursive_traversal_map_in_dfs, hga]
      | some n =>
        have hpush : path.map f ++ [f n.val] = (path ++ [n.val]).map f := by simp
        cases typ with
        | NLR =>
          simp only [recursive_traversal_map_in_dfs, hga, Option.some_bind]
          rw [hpush, ih n.left (path ++ [n.val])]
          cases recursive_traversal_map_in_dfs arena .NLR (fun x => x) fl n.left
              (path ++ [n.val]) with
          | none => simp
          | some p => simp [ih n.right p]
        | LNR =>
          simp only [recursive_traversal_map_in_dfs, hga, Option.some_bind]
          rw [ih n.left path]
          cases recursive_traversal_map_in_dfs arena .LNR (fun x => x) fl n.left path with
          | none => simp
          | some p =>
            have : p.map f ++ [f n.val] = (p ++ [n.val]).map f := by simp
            simp only [Option.map_some', Option.some_bind, this, ih n.right (p ++ [n.val])]
        | LRN =>
          simp only [recursive_traversal_map_in_dfs, hga, Option.some_bind]
          rw [ih n.left path]
          cases recursive_traversal_map_in_dfs arena .LRN (fun x => x) fl n.left path with
          | none => simp
          | some p =>
            simp only [Option.map_some', Option.some_bind, ih n.right p]
            cases recursive_traversal_map_in_dfs arena .LRN (fun x => x) fl n.right p with
            | none => simp
            | some q => simp
        | NRL =>
          simp only [recursive_traversal_map_in_dfs, hga, Option.some_bind]
          rw [hpush, ih n.right (path ++ [n.val])]
          cases recursive_traversal_map_in_dfs arena .NRL (fun x => x) fl n.right
              (path ++ [n.val]) with
          | none => simp
          | some p => simp [ih n.left p]
        | RNL =>
          simp only [recursive_traversal_map_in_dfs, hga, Option.some_bind]
          rw [ih n.right path]
          cases recursive_traversal_map_in_dfs arena .RNL (fun x => x) fl n.right path with
          | none => simp
          | some p =>
            have : p.map f ++ [f n.val] = (p ++ [n.val]).map f := by simp
            simp only [Option.map_some', Option.some_bind, this, ih n.left (p ++ [n.val])]
        | RLN =>
          simp only [recursive_traversal_map_in_dfs, hga, Option.some_bind]
          rw [ih n.right path]
          cases recursive_traversal_map_in_dfs arena .RLN (fun x => x) fl n.right path with
          | none => simp
          | some p =>
            simp only [Option.map_some', Option.some_bind, ih n.left p]
            cases recursive_traversal_map_in_dfs arena .RLN (fun x => x) fl n.left p with
            | none => simp
            | some q => simp
        | BFS => simp [recursive_traversal_map_in_dfs, hga]

theorem bfs_map_comm (arena : List (Node T)) (f : T → T) :
    ∀ (fuel : Nat) (cur : Node T) (q seen : List Nat) (path : List T),
      traversal_map_in_bfs arena f fuel cur q seen (path.map f)
        = (traversal_map_in_bfs arena (fun x => x) fuel cur q seen path).map
            (List.map f) := by
  intro fuel
  induction fuel with
  | zero =>
    intro cur q seen path
    simp [traversal_map_in_bfs]
  | succ fl ih =>
    intro cur q seen path
    have hpush : path.map f ++ [f cur.val] = (path ++ [cur.val]).map f := by simp
    by_cases hseen : cur.idx ∈ seen
    · simp only [traversal_map_in_bfs, if_pos hseen]
      simp
    · simp only [traversal_map_in_bfs, if_neg hseen]
      cases hq : q ++ (match cur.left with | some i => [i] | none => [])
          ++ (match cur.right with | some i => [i] | none => []) with
      | nil => simp
      | cons id rest =>
        cases hga : arena[id]? with
        | none => simp [hga]
        | some nxt =>
          simp only [hga, Option.some_bind]
          rw [hpush]
          exact ih nxt rest (cur.idx :: seen) (path ++ [cur.val])

theorem modifyNode_length {l l' : List (Node T)} {i : Nat} {f : Node T → Node T}
    (h : modifyNode l i f = some l') : l'.length = l.length := by
  unfold modifyNode at h
  cases hg : l[i]? with
  | none => rw [hg] at h; exact Option.noConfusion h
  | some n =>
    rw [hg] at h
    injection h with h
    rw [← h]
    simp

theorem update_parent_some_length {t : ArenaTree T} {p : Option Nat} {c o : Nat}
    {t' : ArenaTree T} (h : t.update_parent p (some c) o = some t') :
    t'.arena.length = t.arena.length := by
  cases p with
  | none =>
    unfold ArenaTree.update_parent at h
    injection h with h
    rw [← h]
  | some pid =>
    unfold ArenaTree.update_parent at h
    obtain ⟨a, ha, haa⟩ := Option.map_eq_some'.mp h
    rw [← haa]
    exact modifyNode_length ha

theorem update_parent_length {t : ArenaTree T} {p i : Option Nat} {o : Nat}
    {t' : ArenaTree T} (h : t.update_parent p i o = some t') :
    t'.arena.length = t.arena.length ∨ t'.arena = [] := by
  cases i with
  | some c => exact Or.inl (update_parent_some_length h)
  | none =>
    cases p with
    | none =>
      unfold ArenaTree.update_parent at h
      injection h with h
      rw [← h]
      exact Or.inr rfl
    | some pid =>
      unfold ArenaTree.update_parent at h
      obtain ⟨a, ha, haa⟩ := Option.map_eq_some'.mp h
      rw [← haa]
      exact Or.inl (modifyNode_length ha)

theorem delete_size_cases [LinearOrder T] (t : ArenaTree T) (v : T) (b : Bool)
    (t' : ArenaTree T) (h : t.delete v = some (b, t')) :
    t'.arena.length = t.arena.length ∨ t'.arena = [] := by
  unfold ArenaTree.delete at h
  obtain ⟨r, _, h⟩ := Option.bind_eq_some.mp h
  split at h
  · injection h with h
    simp only [Prod.mk.injEq] at h
    rw [← h.2]
    exact Or.inl rfl
  · obtain ⟨cur, _, h⟩ := Option.bind_eq_some.mp h
    dsimp only at h
    cases hcl : cur.left with
    | none =>
      cases hcr : cur.right with
      | none =>
        rw [hcl, hcr] at h
        obtain ⟨t2, h2, h3⟩ := Option.map_eq_some'.mp h
        simp only [Prod.mk.injEq] at h3
        rw [← h3.2]
        exact update_parent_length h2
      | some rid =>
        rw [hcl, hcr] at h
        obtain ⟨t1, h1, h⟩ := Option.bind_eq_some.mp h
        obtain ⟨a, ha, h3⟩ := Option.map_eq_some'.mp h
        simp only [Prod.mk.injEq] at h3
        rw [← h3.2]
        left
        show a.length = _
        rw [modifyNode_length ha, update_parent_some_length h1]
    | some lid =>
      cases hcr : cur.right with
      | none =>
        rw [hcl, hcr] at h
        obtain ⟨t1, h1, h⟩ := Option.bind_eq_some.mp h
        obtain ⟨a, ha, h3⟩ := Option.map_eq_some'.mp h
        simp only [Prod.mk.injEq] at h3
        rw [← h3.2]
        left
        show a.length = _
        rw [modifyNode_length ha, update_parent_some_length h1]
      | some rid =>
        rw [hcl, hcr] at h
        obtain ⟨cid, _, h⟩ := Option.bind_eq_some.mp h
        obtain ⟨t1, h1, h⟩ := Option.bind_eq_some.mp h
        obtain ⟨cand, _, h⟩ := Option.bind_eq_some.mp h
        obtain ⟨a2, ha2, h⟩ := Option.bind_eq_some.mp h
        obtain ⟨t3, h3, h4⟩ := Option.map_eq_some'.mp h
        simp only [Prod.mk.injEq] at h4
        rw [← h4.2]
        rcases update_parent_length h3 with heq | hemp
        · left
          rw [heq]
          show a2.length = _
          rw [modifyNode_length ha2, update_parent_some_length h1]
        · exact Or.inr hemp

theorem insert_size_le [LinearOrder T] (t : ArenaTree T) (v : T) (i : Nat)
    (t' : ArenaTree T) (h : t.insert v = some (i, t')) :
    t.arena.length ≤ t'.arena.length := by
  unfold ArenaTree.insert at h
  obtain ⟨r, _, h⟩ := Option.bind_eq_some.mp h
  split at h
  · split at h
    · injection h with h
      simp only [ArenaTree.node, Prod.mk.injEq] at h
      rw [← h.2]
      simp
    · obtain ⟨root, _, h2⟩ := Option.map_eq_some'.mp h
      split at h2
      · simp only [Prod.mk.injEq] at h2
        rw [← h2.2]
      · simp only [ArenaTree.node, Prod.mk.injEq] at h2
        rw [← h2.2]
        simp
  · obtain ⟨parent, _, h⟩ := Option.bind_eq_some.mp h
    split at h
    · injection h with h
      simp only [Prod.mk.injEq] at h
      rw [← h.2]
    · obtain ⟨a1, ha1, h⟩ := Option.bind_eq_some.mp h
      obtain ⟨a2, ha2, h2⟩ := Option.map_eq_some'.mp h
      simp only [Prod.mk.injEq] at h2
      rw [← h2.2]
      show _ ≤ a2.length
      rw [modifyNode_length ha2, modifyNode_length ha1]
      simp [ArenaTree.node]

/-!
## Claim theorems
-/

/-- Claim C1: the spec says that after `delete(v)` succeeds, `search(v)`
returns `None`, a subsequent `delete(v)` returns `false`, and in-order
traversal of the remaining reachable nodes is sorted.  The code violates
this: the two-children case of `delete` never refreshes the surviving
children's `parent` links, so after building `[4,2,6,1,3,5,7]` and deleting
`4`, the value `2` is still present (at index 1), `delete 2` succeeds, yet
afterwards `search 2` answers index `2` (the node holding `6`), one more
`delete 2` also returns `true`, and the in-order traversal
`[1,2,1,3,5,6,7]` is not sorted. -/
theorem C1_delete_then_search_violated :
    ∃ t0 t1 t2 t3 : ArenaTree ℕ,
      ArenaTree.from_vec [4, 2, 6, 1, 3, 5, 7] = some t0 ∧
      t0.delete 4 = some (true, t1) ∧
      t1.search 2 = some (some 1) ∧
      t1.delete 2 = some (true, t2) ∧
      t2.search 2 = some (some 2) ∧
      t2.delete 2 = some (true, t3) ∧
      t2.traversal .LNR = some [1, 2, 1, 3, 5, 6, 7] ∧
      ¬ List.Sorted (· ≤ ·) ([1, 2, 1, 3, 5, 6, 7] : List ℕ) := by
  refine ⟨_, _, _, _, rfl, rfl, rfl, rfl, rfl, rfl, rfl, by decide⟩

/-- Claim C2: the spec says that after a two-children deletion the surviving
children's `parent` fields point at the successor and the successor's
`parent` becomes the deleted node's former parent.  The code only performs
the second half: deleting `4` from `[4,2,6,1,3,5,7]` promotes successor
index `5` (which takes children `1` and `2` and becomes root), but the
children at indices `1` and `2` keep `parent = some 0`, the deleted node's
index, instead of `some 5`. -/
theorem C2_children_parent_links_stale :
    ∃ t0 t1 : ArenaTree ℕ,
      ArenaTree.from_vec [4, 2, 6, 1, 3, 5, 7] = some t0 ∧
      t0.delete 4 = some (true, t1) ∧
      t1.root_id = 5 ∧
      t1.arena[5]? = some ⟨5, 5, none, some 1, some 2⟩ ∧
      t1.arena[1]? = some ⟨1, 2, some 0, some 3, some 4⟩ ∧
      t1.arena[2]? = some ⟨2, 6, some 0, none, some 6⟩ := by
  refine ⟨_, _, rfl, rfl, rfl, rfl, rfl, rfl⟩

/-- Claim C3: the spec states parent/child consistency as an invariant of
every reachable state.  It is broken by a single two-children deletion:
after `from_vec [4,2,6,1,3,5,7]` and `delete 4`, the root node (index 5)
has `left = some 1`, but the node at index 1 has `parent = some 0`, not
`some 5`. -/
theorem C3_parent_child_consistency_violated :
    ∃ t0 t1 : ArenaTree ℕ, ∃ a b : Node ℕ,
      ArenaTree.from_vec [4, 2, 6, 1, 3, 5, 7] = some t0 ∧
      t0.delete 4 = some (true, t1) ∧
      t1.arena[t1.root_id]? = some a ∧
      a.left = some 1 ∧
      t1.arena[1]? = some b ∧
      b.parent ≠ some a.idx := by
  refine ⟨_, _, _, _, rfl, rfl, rfl, rfl, rfl, by decide⟩

/-- Claim C4 (counterexample): the spec calls the store append-only with a
monotonically non-decreasing `size()`, but deleting the last node (a root
with no children and no parent) executes `self.arena.clear()`: starting
from the one-node tree `[1]`, `size` drops from `1` to `0` and the store
becomes empty. -/
theorem C4_size_monotone_counterexample :
    ∃ t0 t1 : ArenaTree ℕ,
      ArenaTree.from_vec [1] = some t0 ∧
      t0.size = 1 ∧
      t0.delete 1 = some (true, t1) ∧
      t1.size = 0 ∧
      t1.arena = [] := by
  refine ⟨_, _, rfl, rfl, rfl, rfl, rfl⟩

/-- Claim C4 (amended): `delete` never removes or reuses an individual
node's slot - every delete either leaves `size()` unchanged or discards the
entire backing store at once, making `size()` equal to `0`; deleting a node
that has no children and no parent always clears the store this way.
`insert` never decreases `size()`.  Hence `size()` counts every node
created since the store was last cleared, not the currently reachable
nodes. -/
theorem C4_size_behaviour_amended [LinearOrder T] (t : ArenaTree T) (v : T) :
    (∀ b t', t.delete v = some (b, t') → t'.size = t.size ∨ t'.arena = []) ∧
    (∀ id cur, t.search v = some (some id) → t.arena[id]? = some cur →
      cur.left = none → cur.right = none → cur.parent = none →
      t.delete v = some (true, ⟨t.root_id, []⟩)) ∧
    (∀ i t', t.insert v = some (i, t') → t.size ≤ t'.size) := by
  refine ⟨?_, ?_, ?_⟩
  · intro b t' h
    exact delete_size_cases t v b t' h
  · intro id cur hs hc hl hr hp
    unfold ArenaTree.delete
    rw [hs, Option.some_bind]
    simp [hc, hl, hr, hp, ArenaTree.update_parent]
  · intro i t' h
    exact insert_size_le t v i t' h

/-- Witness for the amended C4 statement at a concrete input: deleting the
value `1` from the one-node tree (its node is childless with no parent)
clears the arena, and the size disjunction holds there. -/
theorem C4_size_behaviour_amended_witness :
    ((⟨0, []⟩ : ArenaTree ℕ).size = (⟨0, [⟨0, 1, none, none, none⟩]⟩ : ArenaTree ℕ).size ∨
      (⟨0, []⟩ : ArenaTree ℕ).arena = []) ∧
    (⟨0, [⟨0, 1, none, none, none⟩]⟩ : ArenaTree ℕ).delete 1 = some (true, ⟨0, []⟩) :=
  ⟨(C4_size_behaviour_amended (⟨0, [⟨0, 1, none, none, none⟩]⟩ : ArenaTree ℕ) 1).1
      true ⟨0, []⟩ (by rfl),
    (C4_size_behaviour_amended (⟨0, [⟨0, 1, none, none, none⟩]⟩ : ArenaTree ℕ) 1).2.1
      0 ⟨0, 1, none, none, none⟩ (by rfl) (by rfl) rfl rfl rfl⟩

/-- Claim C5: the spec says inserting a value already present returns the
index of the existing node holding it.  The root branch of `insert` returns
the literal `0` instead of `self.root_id`: after `from_vec [1, 2]` and
`delete 1`, the value `2` sits at the root, index `1` (as `search` reports),
but `insert 2` returns `0` - the slot of the deleted node holding `1`.
The call performs no mutation and a repeated call returns `0` again, so
only the "returns the existing index" part fails. -/
theorem C5_insert_existing_returns_wrong_index :
    ∃ t0 t1 : ArenaTree ℕ,
      ArenaTree.from_vec [1, 2] = some t0 ∧
      t0.delete 1 = some (true, t1) ∧
      t1.search 2 = some (some 1) ∧
      t1.insert 2 = some (0, t1) ∧
      t1.arena[0]? = some ⟨0, 1, none, none, some 1⟩ := by
  refine ⟨_, _, rfl, rfl, rfl, rfl, rfl⟩

/-- Claim C6: the spec says an insert into an empty store makes the new
node the root.  `arena.clear()` does not reset `root_id` and `node()` does
not set it, so after emptying `[1, 2]` by deleting `1` then `2` the tree is
`{root_id = 1, arena = []}`; `insert 5` creates the node at index `0` but
`root_id` stays `1`, and the subsequent `search` and traversal index out of
bounds (modelled as `none`) instead of finding the value at the root. -/
theorem C6_insert_into_emptied_store_not_root :
    ∃ t0 t1 t2 t3 : ArenaTree ℕ,
      ArenaTree.from_vec [1, 2] = some t0 ∧
      t0.delete 1 = some (true, t1) ∧
      t1.delete 2 = some (true, t2) ∧
      t2.arena = [] ∧
      t2.insert 5 = some (0, t3) ∧
      t3.arena = [⟨0, 5, none, none, none⟩] ∧
      t3.root_id = 1 ∧
      t3.search 5 = none ∧
      t3.traversal .BFS = none := by
  refine ⟨_, _, _, _, rfl, rfl, rfl, rfl, rfl, rfl, rfl, rfl, rfl⟩

/-- Claim C7: starting from `[4, 2, 6, 1, 3, 5, 7]`, deleting
`4, 5, 6, 7, 2, 3, 1` in order succeeds at each step and the breadth-first
traversals after each step are exactly the seven lists of the spec. -/
theorem C7_exhaustive_deletion_sequence :
    ∃ t0 t1 t2 t3 t4 t5 t6 t7 : ArenaTree ℕ,
      ArenaTree.from_vec [4, 2, 6, 1, 3, 5, 7] = some t0 ∧
      t0.delete 4 = some (true, t1) ∧ t1.traversal .BFS = some [5, 2, 6, 1, 3, 7] ∧
      t1.delete 5 = some (true, t2) ∧ t2.traversal .BFS = some [6, 2, 7, 1, 3] ∧
      t2.delete 6 = some (true, t3) ∧ t3.traversal .BFS = some [7, 2, 1, 3] ∧
      t3.delete 7 = some (true, t4) ∧ t4.traversal .BFS = some [2, 1, 3] ∧
      t4.delete 2 = some (true, t5) ∧ t5.traversal .BFS = some [3, 1] ∧
      t5.delete 3 = some (true, t6) ∧ t6.traversal .BFS = some [1] ∧
      t6.delete 1 = some (true, t7) ∧ t7.traversal .BFS = some [] := by
  refine ⟨_, _, _, _, _, _, _, _, rfl, rfl, rfl, rfl, rfl, rfl, rfl, rfl, rfl, rfl,
    rfl, rfl, rfl, rfl, rfl⟩

/-- Claim C8: for every finite sequence of inserted values over any totally
ordered type, `from_vec` succeeds and the in-order (Left, Node, Right)
traversal lists exactly the distinct inserted values, without duplicates,
in non-decreasing sorted order. -/
theorem C8_insert_only_inorder_sorted [LinearOrder T] (l : List T) :
    ∃ t out, ArenaTree.from_vec l = some t ∧
      t.traversal .LNR = some out ∧
      out.Sorted (· ≤ ·) ∧ out.Nodup ∧ (∀ x, x ∈ out ↔ x ∈ l) := by
  obtain ⟨t, s, hfv, hgs, hmem⟩ := from_vec_good l
  obtain ⟨hroot, hbst, hnd, hca⟩ := hgs
  have hsortlt : s.ivals.Sorted (· < ·) := ITree.ivals_sorted s hbst
  have hsorted : s.ivals.Sorted (· ≤ ·) := hsortlt.imp le_of_lt
  have hnodup : s.ivals.Nodup := hsortlt.imp ne_of_lt
  rcases hca with ⟨hemp, hleaf⟩ | hrepr
  · refine ⟨t, [], hfv, ?_, by simp, by simp, ?_⟩
    · simp [ArenaTree.traversal, ArenaTree.traversal_map, hemp]
    · intro x
      rw [← hmem x]
      rw [hleaf]
      simp [ITree.ivals]
  · obtain ⟨n, hget⟩ := hrepr.some_get
    have hne : t.arena ≠ [] := by
      intro hc
      rw [hc] at hget
      simp at hget
    have hdfs := dfs_lnr_repr t.arena (fun x => x) s t.arena.length none
      (some t.root_id) [] (hrepr.sizeI_le hnd) hrepr
    refine ⟨t, s.ivals, hfv, ?_, hsorted, hnodup, fun x => hmem x⟩
    unfold ArenaTree.traversal ArenaTree.traversal_map
    rw [if_neg (by simp only [List.isEmpty_iff]; exact hne)]
    simpa using hdfs

/-- Witness for C8 at a concrete insertion sequence. -/
theorem C8_insert_only_inorder_sorted_witness :
    ∃ t out, ArenaTree.from_vec [2, 1, 3] = some t ∧
      t.traversal .LNR = some out ∧
      out.Sorted (· ≤ ·) ∧ out.Nodup ∧ (∀ x : ℕ, x ∈ out ↔ x ∈ [2, 1, 3]) :=
  C8_insert_only_inorder_sorted [2, 1, 3]

/-- Claim C9: the spec says every operation is infallible on every state
reachable by public operations.  The state reached by
`insert 1; insert 2; delete 1; delete 2; insert 5` is
`{root_id = 1, arena = [node 5 at index 0]}`, and on it `search`,
`search_parent`, `delete` and breadth-first traversal all index
`arena[1]` out of bounds - a Rust panic, modelled as `none`. -/
theorem C9_reachable_state_panics :
    ∃ t0 t1 t2 t3 : ArenaTree ℕ,
      ArenaTree.from_vec [1, 2] = some t0 ∧
      t0.delete 1 = some (true, t1) ∧
      t1.delete 2 = some (true, t2) ∧
      t2.insert 5 = some (0, t3) ∧
      t3.search 5 = none ∧
      t3.search_parent 5 = none ∧
      t3.delete 5 = none ∧
      t3.traversal .BFS = none := by
  refine ⟨_, _, _, _, rfl, rfl, rfl, rfl, rfl, rfl, rfl, rfl⟩

/-- Claim C10: for every tree state, traversal order and function `f`,
`traversal_map(order, f)` is `List.map f` of `traversal(order)`,
`traversal(order)` is `traversal_map(order, identity)`, and on an empty
store both return the empty sequence. -/
theorem C10_traversal_map_is_map [LinearOrder T] (t : ArenaTree T)
    (typ : Traversal) (f : T → T) :
    t.traversal_map typ f = (t.traversal typ).map (List.map f) ∧
    t.traversal typ = t.traversal_map typ (fun x => x) ∧
    (t.arena = [] → t.traversal_map typ f = some [] ∧ t.traversal typ = some []) := by
  refine ⟨?_, rfl, ?_⟩
  · unfold ArenaTree.traversal ArenaTree.traversal_map
    by_cases hemp : t.arena.isEmpty
    · rw [if_pos hemp, if_pos hemp]
      simp
    · rw [if_neg hemp, if_neg hemp]
      cases typ with
      | BFS =>
        cases hga : t.arena[t.root_id]? with
        | none => simp [hga]
        | some root =>
          simp only [hga, Option.some_bind]
          simpa using bfs_map_comm t.arena f (t.arena.length + 1) root [] [] []
      | NLR => simpa using dfs_map_comm t.arena .NLR f t.arena.length (some t.root_id) []
      | LNR => simpa using dfs_map_comm t.arena .LNR f t.arena.length (some t.root_id) []
      | LRN => simpa using dfs_map_comm t.arena .LRN f t.arena.length (some t.root_id) []
      | NRL => simpa using dfs_map_comm t.arena .NRL f t.arena.length (some t.root_id) []
      | RNL => simpa using dfs_map_comm t.arena .RNL f t.arena.length (some t.root_id) []
      | RLN => simpa using dfs_map_comm t.arena .RLN f t.arena.length (some t.root_id) []
  · intro hemp
    constructor <;> simp [ArenaTree.traversal_map, ArenaTree.traversal, hemp]

/-- Witness for C10 on the empty tree. -/
theorem C10_traversal_map_is_map_witness :
    (⟨0, []⟩ : ArenaTree ℕ).traversal_map .BFS (fun x => x + 1) = some [] ∧
    (⟨0, []⟩ : ArenaTree ℕ).traversal .BFS = some [] :=
  (C10_traversal_map_is_map (⟨0, []⟩ : ArenaTree ℕ) .BFS (fun x => x + 1)).2.2 rfl
